import Mathlib

/-!
Verification of the turboplot tile cache and rendering pipeline.

Shallow embedding of the core of the turboplot trace viewer:

* the tile identity and cache data structure (`src/tiling.rs`),
* the tile geometry computed by `TilingRenderer::render_tile`,
* the camera view transform (`src/camera.rs`),
* the camera-updating operations of `src/viewer.rs` / `src/main.rs`,
* the GPU renderer capacity bounds (`src/renderer.rs`),
* the density accumulation algorithm of the Renderer backends.

Machine integers are modelled as `Nat`/`Int`; the `Fixed` type
(`fixed::FixedI64<U24>`) is modelled by its raw `Int` representation, the
represented value being `raw / 2^24`.  `f32` values that only transport
exact fixed-point quantities are modelled as exact rationals.
-/

namespace Turboplot

/-! ## Constants (src/renderer.rs, src/viewer.rs) -/

/-- Maximum number of f32 trace points that can be sent to the GPU at once
(`RENDERER_MAX_TRACE_SIZE` in src/renderer.rs). -/
def RENDERER_MAX_TRACE_SIZE : ℕ := 8 * 1024 * 1024 * 4

/-- Maximum number of u32 pixels that can be calculated by the compute shader
(`RENDERER_MAX_PIXELS` in src/renderer.rs). -/
def RENDERER_MAX_PIXELS : ℕ := 524288

/-- Width of the tiles (`TILE_WIDTH` in src/viewer.rs). -/
def TILE_WIDTH : ℕ := 64

/-- Minimum zoom level renderable by the GPU
(`MIN_SCALE_X` in src/viewer.rs, integer division). -/
def MIN_SCALE_X : ℕ := (RENDERER_MAX_TRACE_SIZE - 1) / TILE_WIDTH

/-- Number of fractional bits of the `Fixed` type (`FixedI64<U24>`). -/
def FIXED_ONE : ℤ := 2 ^ 24

/-! ## Data model (src/tiling.rs) -/

/-- Rendering status of a tile (`TileStatus` in src/tiling.rs). -/
inductive TileStatus where
  /-- The tile must be rendered. -/
  | notRendered
  /-- A renderer is currently generating the tile. -/
  | rendering
  /-- The tile has been rendered. -/
  | rendered
deriving DecidableEq, Repr

/-- Width and height of a tile (`TileSize` in src/tiling.rs). -/
structure TileSize where
  w : ℕ
  h : ℕ
deriving DecidableEq, Repr

/-- Area (`TileSize::area`): width multiplied by height. -/
def TileSize.area (s : TileSize) : ℕ := s.w * s.h

/-- Pair of fixed-point values (`FixedVec2` in src/util.rs), raw representation. -/
structure FixedVec2 where
  x : ℤ
  y : ℤ
deriving DecidableEq, Repr

/-- Identity key of a tile (`TileProperties` in src/tiling.rs, with the
`id` field of the multi-viewer version). -/
structure TileProperties where
  id : ℕ
  scale : FixedVec2
  offset : ℤ
  index : ℤ
  size : TileSize
deriving DecidableEq, Repr

/-- A cache entry (`Tile` in src/tiling.rs). -/
structure Tile where
  status : TileStatus
  properties : TileProperties
  data : List ℕ
deriving DecidableEq, Repr

/-- Fresh entry (`Tile::new`): not rendered, with empty data. -/
def Tile.new (p : TileProperties) : Tile :=
  { status := TileStatus.notRendered, properties := p, data := [] }

/-- The tile cache (`Tiling` in src/tiling.rs). -/
structure Tiling where
  tiles : List Tile
deriving DecidableEq, Repr

/-- Empty cache (`Tiling::new`). -/
def Tiling.new : Tiling := { tiles := [] }

/-- Lookup (`Tiling::get`): returns a copy of the matching entry if it exists; if not
and `request` is true, inserts a fresh entry and returns it.  The mutated
cache is returned as the second component. -/
def Tiling.get (g : Tiling) (p : TileProperties) (request : Bool) :
    Option Tile × Tiling :=
  match g.tiles.find? (fun x => decide (x.properties = p)) with
  | some tile => (some tile, g)
  | none =>
    if request then (some (Tile.new p), ⟨g.tiles ++ [Tile.new p]⟩)
    else (none, g)

/-- Pending check (`Tiling::has_pending`): true if at least one tile is not rendered. -/
def Tiling.has_pending (g : Tiling) : Bool :=
  g.tiles.any (fun t => decide (t.status ≠ TileStatus.rendered))

/-- Recursion underlying `Tiling::take_job`: find the first entry whose
status is `NotRendered`, flip it to `Rendering`, and return its properties
together with the updated tile list. -/
def takeJobAux : List Tile → Option TileProperties × List Tile
  | [] => (none, [])
  | t :: ts =>
    if t.status = TileStatus.notRendered then
      (some t.properties, { t with status := TileStatus.rendering } :: ts)
    else
      let r := takeJobAux ts
      (r.1, t :: r.2)

/-- Job dequeue (`Tiling::take_job`). -/
def Tiling.take_job (g : Tiling) : Option TileProperties × Tiling :=
  ((takeJobAux g.tiles).1, ⟨(takeJobAux g.tiles).2⟩)

/-- Write-back step of `TilingRenderer::render_next_tile` (src/tiling.rs):
update the first entry matching `p` in place, setting its data and marking it
`Rendered`; if no entry matches (the tile was evicted while rendering was in
flight), push the result as a new `Rendered` tile. -/
def writeBackAux : List Tile → TileProperties → List ℕ → List Tile
  | [], p, d => [{ status := TileStatus.rendered, properties := p, data := d }]
  | x :: xs, p, d =>
    if x.properties = p then
      { x with status := TileStatus.rendered, data := d } :: xs
    else
      x :: writeBackAux xs p d

/-- Write-back on the cache. -/
def Tiling.write_back (g : Tiling) (p : TileProperties) (d : List ℕ) : Tiling :=
  ⟨writeBackAux g.tiles p d⟩

/-! ## Lemmas about `take_job` -/

lemma takeJobAux_isSome (ts : List Tile) :
    (takeJobAux ts).1.isSome ↔ ∃ u ∈ ts, u.status = TileStatus.notRendered := by
  induction ts with
  | nil => simp [takeJobAux]
  | cons t ts ih =>
    by_cases h : t.status = TileStatus.notRendered
    · simp [takeJobAux, h]
    · simp only [takeJobAux, h, if_false, List.mem_cons, ih]
      constructor
      · rintro ⟨u, hu, hs⟩
        exact ⟨u, Or.inr hu, hs⟩
      · rintro ⟨u, hu | hu, hs⟩
        · exact absurd (hu ▸ hs) h
        · exact ⟨u, hu, hs⟩

lemma takeJobAux_some_decomp {ts : List Tile} {p : TileProperties}
    (hp : (takeJobAux ts).1 = some p) :
    ∃ l₁ u l₂, ts = l₁ ++ u :: l₂ ∧ u.status = TileStatus.notRendered ∧
      u.properties = p ∧
      (takeJobAux ts).2 = l₁ ++ { u with status := TileStatus.rendering } :: l₂ ∧
      ∀ v ∈ l₁, v.status ≠ TileStatus.notRendered := by
  induction ts with
  | nil => simp [takeJobAux] at hp
  | cons t ts ih =>
    by_cases h : t.status = TileStatus.notRendered
    · simp only [takeJobAux, h, if_true, Option.some.injEq] at hp
      exact ⟨[], t, ts, rfl, h, hp, by simp [takeJobAux, h], by simp⟩
    · simp only [takeJobAux, h, if_false] at hp
      obtain ⟨l₁, u, l₂, hts, hu, hup, hsnd, hall⟩ := ih hp
      refine ⟨t :: l₁, u, l₂, by simp [hts], hu, hup, ?_, ?_⟩
      · simp [takeJobAux, h, hsnd]
      · intro v hv
        rcases List.mem_cons.mp hv with rfl | hv
        · exact h
        · exact hall v hv

lemma takeJobAux_some_mem {ts : List Tile} {p : TileProperties}
    (hp : (takeJobAux ts).1 = some p) :
    ∃ u ∈ ts, u.status = TileStatus.notRendered ∧ u.properties = p := by
  obtain ⟨l₁, u, l₂, hts, hu, hup, -, -⟩ := takeJobAux_some_decomp hp
  exact ⟨u, by simp [hts], hu, hup⟩

/-- After a successful `take_job` returning `p`, no entry of the updated cache
with status `NotRendered` carries the properties `p` (assuming pairwise
distinct properties). -/
lemma takeJobAux_fresh {ts : List Tile} {p : TileProperties}
    (hdist : ts.Pairwise (fun a b => a.properties ≠ b.properties))
    (hp : (takeJobAux ts).1 = some p) :
    ∀ x ∈ (takeJobAux ts).2, x.status = TileStatus.notRendered →
      x.properties ≠ p := by
  induction ts with
  | nil => simp [takeJobAux] at hp
  | cons t ts ih =>
    obtain ⟨hhead, htail⟩ := List.pairwise_cons.mp hdist
    by_cases h : t.status = TileStatus.notRendered
    · simp only [takeJobAux, h, if_true, Option.some.injEq] at hp
      simp only [takeJobAux, h, if_true]
      intro x hx hxs
      rcases List.mem_cons.mp hx with rfl | hx
      · simp at hxs
      · exact fun hxp => (hhead x hx) (hp ▸ hxp ▸ rfl)
    · simp only [takeJobAux, h, if_false] at hp ⊢
      intro x hx hxs
      rcases List.mem_cons.mp hx with rfl | hx
      · exact absurd hxs h
      · exact ih htail hp x hx hxs

/-- C2: `take_job` returns `Some` iff a `NotRendered` entry exists; it flips
exactly that (first such) entry to `Rendering`, leaving every other entry
unchanged; it returns `None` when no entry is `NotRendered`; and two
consecutive calls never return the same `TileProperties` (entries having
pairwise distinct properties). -/
theorem claim_C2_take_job (g : Tiling)
    (hdist : g.tiles.Pairwise (fun a b => a.properties ≠ b.properties)) :
    ((g.take_job.1).isSome ↔ ∃ u ∈ g.tiles, u.status = TileStatus.notRendered)
    ∧ (∀ p, g.take_job.1 = some p →
        ∃ l₁ u l₂, g.tiles = l₁ ++ u :: l₂ ∧
          u.status = TileStatus.notRendered ∧ u.properties = p ∧
          (g.take_job.2).tiles =
            l₁ ++ { u with status := TileStatus.rendering } :: l₂ ∧
          ∀ v ∈ l₁, v.status ≠ TileStatus.notRendered)
    ∧ ((∀ u ∈ g.tiles, u.status ≠ TileStatus.notRendered) →
        g.take_job.1 = none)
    ∧ (∀ p q, g.take_job.1 = some p → (g.take_job.2).take_job.1 = some q →
        q ≠ p) := by
  refine ⟨takeJobAux_isSome g.tiles, ?_, ?_, ?_⟩
  · intro p hp
    exact takeJobAux_some_decomp hp
  · intro hnone
    by_contra hsome
    obtain ⟨p, hp⟩ := Option.ne_none_iff_exists'.mp hsome
    obtain ⟨u, hu, hs, -⟩ := takeJobAux_some_mem hp
    exact hnone u hu hs
  · intro p q hp hq
    obtain ⟨v, hv, hvs, hvp⟩ := takeJobAux_some_mem hq
    exact hvp ▸ takeJobAux_fresh hdist hp v hv hvs

/-! ## Lemmas about `get` -/

/-- C3: `get(p, false)` returns a copy of the matching entry when one exists
and `None` otherwise, never mutating the cache (so `has_pending` is
unchanged); `get(p, true)` always returns `Some`: the existing entry when
present (cache unchanged), otherwise a freshly inserted `NotRendered` entry,
creating exactly one entry for a missing `p` and none otherwise. -/
theorem claim_C3_get (g : Tiling) (p : TileProperties) :
    ((g.get p false).2 = g)
    ∧ ((g.get p false).2.has_pending = g.has_pending)
    ∧ (∀ tile, (g.get p false).1 = some tile →
        tile ∈ g.tiles ∧ tile.properties = p)
    ∧ ((g.get p false).1 = none ↔ ∀ u ∈ g.tiles, u.properties ≠ p)
    ∧ ((g.get p true).1.isSome)
    ∧ ((∃ u ∈ g.tiles, u.properties = p) → (g.get p true).2 = g)
    ∧ ((∀ u ∈ g.tiles, u.properties ≠ p) →
        (g.get p true).2 = ⟨g.tiles ++ [Tile.new p]⟩ ∧
        (g.get p true).1 = some (Tile.new p)) := by
  cases hf : g.tiles.find? (fun x => decide (x.properties = p)) with
  | some tile =>
    have hmem : tile ∈ g.tiles := List.mem_of_find?_eq_some hf
    have hprop : tile.properties = p := by
      have := List.find?_some hf
      simpa using this
    refine ⟨by simp [Tiling.get, hf], by simp [Tiling.get, hf], ?_, ?_, ?_, ?_, ?_⟩
    · intro t ht
      simp only [Tiling.get, hf] at ht
      cases ht
      exact ⟨hmem, hprop⟩
    · simp only [Tiling.get, hf]
      constructor
      · intro h; cases h
      · intro h
        exact absurd hprop (h tile hmem)
    · simp [Tiling.get, hf]
    · intro _
      simp [Tiling.get, hf]
    · intro h
      exact absurd hprop (h tile hmem)
  | none =>
    have hnone : ∀ u ∈ g.tiles, u.properties ≠ p := by
      intro u hu
      have := List.find?_eq_none.mp hf u hu
      simpa using this
    refine ⟨by simp [Tiling.get, hf], by simp [Tiling.get, hf], ?_, ?_, ?_, ?_, ?_⟩
    · intro t ht
      simp [Tiling.get, hf] at ht
    · simp only [Tiling.get, hf]
      exact ⟨fun _ => hnone, fun _ => rfl⟩
    · simp [Tiling.get, hf]
    · rintro ⟨u, hu, hup⟩
      exact absurd hup (hnone u hu)
    · intro _
      simp [Tiling.get, hf]

/-! ## Lemmas about the write-back step -/

lemma writeBackAux_mem (ts : List Tile) (p : TileProperties) (d : List ℕ) :
    ∃ x ∈ writeBackAux ts p d,
      x.properties = p ∧ x.status = TileStatus.rendered ∧ x.data = d := by
  induction ts with
  | nil =>
    refine ⟨{ status := TileStatus.rendered, properties := p, data := d },
      ?_, rfl, rfl, rfl⟩
    simp [writeBackAux]
  | cons t ts ih =>
    by_cases h : t.properties = p
    · refine ⟨{ t with status := TileStatus.rendered, data := d },
        ?_, h, rfl, rfl⟩
      simp [writeBackAux, h]
    · obtain ⟨x, hx, hxp, hxs, hxd⟩ := ih
      refine ⟨x, ?_, hxp, hxs, hxd⟩
      simp [writeBackAux, h, hx]

lemma writeBackAux_absent {ts : List Tile} {p : TileProperties} (d : List ℕ)
    (h : ∀ x ∈ ts, x.properties ≠ p) :
    writeBackAux ts p d =
      ts ++ [{ status := TileStatus.rendered, properties := p, data := d }] := by
  induction ts with
  | nil => simp [writeBackAux]
  | cons t ts ih =>
    have ht : t.properties ≠ p := h t (by simp)
    simp only [writeBackAux, ht, if_false, List.cons_append, List.cons.injEq,
      true_and]
    exact ih fun x hx => h x (by simp [hx])

lemma writeBackAux_present {l₁ : List Tile} {u : Tile} {l₂ : List Tile}
    {p : TileProperties} (d : List ℕ)
    (hup : u.properties = p) (hl₁ : ∀ v ∈ l₁, v.properties ≠ p) :
    writeBackAux (l₁ ++ u :: l₂) p d =
      l₁ ++ { u with status := TileStatus.rendered, data := d } :: l₂ := by
  induction l₁ with
  | nil => simp [writeBackAux, hup]
  | cons v l₁ ih =>
    have hv : v.properties ≠ p := hl₁ v (by simp)
    simp only [List.cons_append, writeBackAux, hv, if_false, List.cons.injEq,
      true_and]
    exact ih fun x hx => hl₁ x (by simp [hx])

/-- C7: after write-back of rendered data `d` for identity `p`, the cache
contains an entry with properties `p`, status `Rendered` and data `d`; a
still-present matching entry is updated in place (everything else unchanged),
and a missing (evicted) entry is re-inserted as a new `Rendered` tile. -/
theorem claim_C7_write_back (g : Tiling) (p : TileProperties) (d : List ℕ) :
    (∃ x ∈ (g.write_back p d).tiles,
      x.properties = p ∧ x.status = TileStatus.rendered ∧ x.data = d)
    ∧ ((∀ x ∈ g.tiles, x.properties ≠ p) →
        (g.write_back p d).tiles =
          g.tiles ++ [{ status := TileStatus.rendered, properties := p,
                        data := d }])
    ∧ (∀ l₁ u l₂, g.tiles = l₁ ++ u :: l₂ → u.properties = p →
        (∀ v ∈ l₁, v.properties ≠ p) →
        (g.write_back p d).tiles =
          l₁ ++ { u with status := TileStatus.rendered, data := d } :: l₂) := by
  refine ⟨writeBackAux_mem g.tiles p d, fun h => writeBackAux_absent d h, ?_⟩
  intro l₁ u l₂ hts hup hl₁
  show writeBackAux g.tiles p d = _
  rw [hts]
  exact writeBackAux_present d hup hl₁

/-! ## Concrete cache used by the witnesses -/

/-- A concrete tile identity. -/
def pEx1 : TileProperties :=
  { id := 0, scale := ⟨2 ^ 24, 2 ^ 24⟩, offset := 0, index := 0,
    size := ⟨64, 64⟩ }

/-- A second concrete tile identity, differing in `index`. -/
def pEx2 : TileProperties :=
  { id := 0, scale := ⟨2 ^ 24, 2 ^ 24⟩, offset := 0, index := 1,
    size := ⟨64, 64⟩ }

/-- A concrete cache holding two fresh tiles with distinct properties. -/
def gEx : Tiling := ⟨[Tile.new pEx1, Tile.new pEx2]⟩

theorem claim_C2_take_job_witness : (gEx.take_job.1).isSome :=
  (claim_C2_take_job gEx (by decide)).1.mpr ⟨Tile.new pEx1, by decide, by decide⟩

theorem claim_C3_get_witness : (gEx.get pEx1 true).1.isSome :=
  (claim_C3_get gEx pEx1).2.2.2.2.1

theorem claim_C7_write_back_witness :
    ∃ x ∈ (gEx.write_back pEx1 [3, 4]).tiles,
      x.properties = pEx1 ∧ x.status = TileStatus.rendered ∧ x.data = [3, 4] :=
  (claim_C7_write_back gEx pEx1 [3, 4]).1

/-! ## Camera (src/camera.rs)

The `Fixed` type is `FixedI64<U24>`: a 64-bit signed integer raw value `r`
representing `r / 2^24`.  We model raw values as `ℤ`.  Multiplication of two
fixed-point numbers computes the full product of the raws and shifts it right
arithmetically by 24 bits (rounding toward `-∞`); division shifts the
dividend left by 24 bits and divides the underlying integers, truncating
toward zero as Rust integer division does. -/

/-- Fixed-point multiplication on raw values. -/
def fixedMul (a b : ℤ) : ℤ := (a * b).fdiv FIXED_ONE

/-- Fixed-point division on raw values. -/
def fixedDiv (a b : ℤ) : ℤ := (a * FIXED_ONE).tdiv b

/-- The camera (`Camera` in src/camera.rs): fixed-point scale and shift. -/
structure Camera where
  scale : FixedVec2
  shift : FixedVec2
deriving DecidableEq, Repr

/-- World-to-screen transform (`Camera::_world_to_screen_x`) on raw
fixed-point values (`wh` is the raw
fixed-point value of `viewport.width() / 2.0`; the final conversion of the
fixed-point result to `f32` is left out):
`screen_x = width/2 + (x - shift.x) / scale.x`. -/
def Camera.world_to_screen_x (c : Camera) (wh x : ℤ) : ℤ :=
  wh + fixedDiv (x - c.shift.x) c.scale.x

/-- Screen-to-world transform (`Camera::_screen_to_world_x`) on raw
fixed-point values:
`world_x = scale.x * (x - width/2) + shift.x`. -/
def Camera.screen_to_world_x (c : Camera) (wh x : ℤ) : ℤ :=
  fixedMul c.scale.x (x - wh) + c.shift.x

/-- Division after multiplication by the same fixed-point value `b ≥ 1`
loses at most one raw unit: the round-trip of the two camera transforms. -/
lemma fixedDiv_fixedMul_bounds (b a : ℤ) (hb : FIXED_ONE ≤ b) :
    a - 1 ≤ fixedDiv (fixedMul b a) b ∧ fixedDiv (fixedMul b a) b ≤ a := by
  have hF : (0 : ℤ) < FIXED_ONE := by norm_num [FIXED_ONE]
  have hb0 : (0 : ℤ) < b := lt_of_lt_of_le hF hb
  -- the multiplication result and its defining bounds
  set m : ℤ := fixedMul b a with hm
  have hmediv : m = (b * a) / FIXED_ONE := by
    rw [hm, fixedMul, Int.fdiv_eq_ediv _ (le_of_lt hF)]
  have hrlo : FIXED_ONE * m ≤ b * a := by
    rw [hmediv, mul_comm]
    exact Int.ediv_mul_le (b * a) (ne_of_gt hF)
  have hrhi : b * a < FIXED_ONE * m + FIXED_ONE := by
    have := Int.lt_ediv_add_one_mul_self (b * a) hF
    rw [hmediv]
    linarith [this]
  rcases le_or_lt 0 a with ha | ha
  · -- nonnegative world offsets: the truncating division is a floor division
    have hba : 0 ≤ b * a := mul_nonneg (le_of_lt hb0) ha
    have hm0 : 0 ≤ m := by
      rw [hmediv]
      exact Int.ediv_nonneg hba (le_of_lt hF)
    have hn0 : 0 ≤ m * FIXED_ONE := mul_nonneg hm0 (le_of_lt hF)
    have hdiv : fixedDiv m b = (m * FIXED_ONE) / b := by
      rw [fixedDiv, Int.tdiv_eq_ediv hn0 (le_of_lt hb0)]
    have hwlo : (fixedDiv m b) * b ≤ m * FIXED_ONE := by
      rw [hdiv]
      exact Int.ediv_mul_le _ (ne_of_gt hb0)
    have hwhi : m * FIXED_ONE < (fixedDiv m b + 1) * b := by
      rw [hdiv]
      exact Int.lt_ediv_add_one_mul_self _ hb0
    constructor
    · -- b * a < (w + 2) * b hence a ≤ w + 1
      have h1 : a * b < (fixedDiv m b + 2) * b := by nlinarith
      have h2 : a < fixedDiv m b + 2 := (mul_lt_mul_right hb0).mp h1
      omega
    · -- w * b ≤ b * a hence w ≤ a
      have h1 : (fixedDiv m b) * b ≤ a * b := by nlinarith
      exact le_of_mul_le_mul_right h1 hb0
  · -- negative world offsets: the round trip is exact
    have hba : b * a < 0 := mul_neg_of_pos_of_neg hb0 ha
    have hm0 : m < 0 := by
      rw [hmediv]
      exact Int.ediv_neg' hba hF
    have hn0 : m * FIXED_ONE < 0 := mul_neg_of_neg_of_pos hm0 hF
    have hneg : (m * FIXED_ONE).tdiv b = -((-(m * FIXED_ONE)).tdiv b) := by
      rw [Int.neg_tdiv, neg_neg]
    have hdiv : fixedDiv m b = -((-(m * FIXED_ONE)) / b) := by
      rw [fixedDiv, hneg, Int.tdiv_eq_ediv (by omega) (le_of_lt hb0)]
    have hwlo : ((-(m * FIXED_ONE)) / b) * b ≤ -(m * FIXED_ONE) :=
      Int.ediv_mul_le _ (ne_of_gt hb0)
    have hwhi : -(m * FIXED_ONE) < ((-(m * FIXED_ONE)) / b + 1) * b :=
      Int.lt_ediv_add_one_mul_self _ hb0
    have hlow : m * FIXED_ONE ≤ (fixedDiv m b) * b := by rw [hdiv]; nlinarith
    have hhigh : (fixedDiv m b - 1) * b < m * FIXED_ONE := by
      rw [hdiv]; nlinarith
    have haw : a = fixedDiv m b := by
      have h1 : b * a ≤ (fixedDiv m b) * b + (FIXED_ONE - 1) := by nlinarith
      have h2 : (fixedDiv m b - 1) * b < b * a := by nlinarith
      have hle : a ≤ fixedDiv m b := by nlinarith
      have hge : fixedDiv m b ≤ a := by nlinarith
      omega
    omega

/-- C8: for every camera whose `scale.x` is at least one sample per pixel,
the screen-to-world transform followed by the world-to-screen transform
returns the original screen coordinate up to one fixed-point unit of the
raw representation. -/
theorem claim_C8_camera_roundtrip (c : Camera) (wh x : ℤ)
    (hb : FIXED_ONE ≤ c.scale.x) :
    |c.world_to_screen_x wh (c.screen_to_world_x wh x) - x| ≤ 1 := by
  have h := fixedDiv_fixedMul_bounds c.scale.x (x - wh) hb
  have hexp : c.world_to_screen_x wh (c.screen_to_world_x wh x) =
      wh + fixedDiv (fixedMul c.scale.x (x - wh)) c.scale.x := by
    simp [Camera.world_to_screen_x, Camera.screen_to_world_x]
  rw [hexp, abs_le]
  omega

theorem claim_C8_camera_roundtrip_witness :
    |(Camera.mk ⟨3 * 2 ^ 23, 2 ^ 24⟩ ⟨5 * 2 ^ 24, 0⟩).world_to_screen_x
        (400 * 2 ^ 24)
        ((Camera.mk ⟨3 * 2 ^ 23, 2 ^ 24⟩ ⟨5 * 2 ^ 24, 0⟩).screen_to_world_x
          (400 * 2 ^ 24) (7 * 2 ^ 22)) - 7 * 2 ^ 22| ≤ 1 :=
  claim_C8_camera_roundtrip _ (400 * 2 ^ 24) (7 * 2 ^ 22)
    (by norm_num [FIXED_ONE])

/-! ## Tile geometry (`TilingRenderer::render_tile`, src/tiling.rs)

The tile with index `index`, width `w` and x-scale `s` covers the trace
sample range `[⌊index*w*s⌋, ⌊(index+1)*w*s⌋)`.  The scale is the exact
rational value of the fixed-point `scale.x`. -/

/-- First sample index covered by the tile (`i_start` in `render_tile`). -/
def iStart (index : ℤ) (w : ℕ) (s : ℚ) : ℤ := ⌊(index : ℚ) * w * s⌋

/-- One past the nominal range of the tile (`i_end` in `render_tile`). -/
def iEnd (index : ℤ) (w : ℕ) (s : ℚ) : ℤ := ⌊((index : ℚ) + 1) * w * s⌋

/-- The trace slice `&trace[i_start .. (i_end + 1).min(trace_len)]` passed
to the renderer backend (one sample past `i_end` is included so segments
connect across tile borders). -/
def traceChunk (trace : List ℚ) (index : ℤ) (s : ℚ) (w : ℕ) : List ℚ :=
  (trace.drop (iStart index w s).toNat).take
    ((min (iEnd index w s + 1) (trace.length : ℤ) - iStart index w s).toNat)

/-- Tile rendering (`TilingRenderer::render_tile`): out-of-range tiles and
empty slices give a
zero-filled grid, otherwise the backend's `render` is called on the clamped
slice with the full intended chunk width `w * s`. -/
def renderTile (render : ℕ → List ℚ → ℕ → ℕ → ℚ → ℚ → List ℕ)
    (trace : List ℚ) (index : ℤ) (offset s sy : ℚ) (size : TileSize) :
    List ℕ :=
  if (trace.length : ℤ) ≤ iStart index size.w s ∨ iStart index size.w s < 0
  then
    List.replicate size.area 0
  else
    let chunk := traceChunk trace index s size.w
    if chunk.isEmpty then List.replicate size.area 0
    else render (⌊(size.w : ℚ) * s⌋.toNat) chunk size.w size.h offset sy

/-- The assertion of `GpuRenderer::load_trace` (src/renderer.rs): loading a
trace slice longer than `RENDERER_MAX_TRACE_SIZE` is a contract violation
(`assert!`, modelled as `none`). -/
def gpuLoadTrace (t : List ℚ) : Option Unit :=
  if t.length ≤ RENDERER_MAX_TRACE_SIZE then some () else none

/-- Floors are superadditive up to one. -/
lemma floor_add_le_floor_add_floor_add_one (x y : ℚ) :
    ⌊x + y⌋ ≤ ⌊x⌋ + ⌊y⌋ + 1 := by
  have hx := Int.lt_floor_add_one x
  have hy := Int.lt_floor_add_one y
  have hsum : x + y < ((⌊x⌋ + ⌊y⌋ + 2 : ℤ) : ℚ) := by push_cast; linarith
  have := Int.floor_lt.mpr hsum
  omega

/-- C4: the GPU backend rejects (by assertion) any trace slice longer than
`RENDERER_MAX_TRACE_SIZE`; and every slice produced by `render_tile` for a
tile of width at most `TILE_WIDTH` under a scale clamped to at most
`MIN_SCALE_X` fits, so the assertion branch is unreachable. -/
theorem claim_C4_capacity (trace : List ℚ) (index : ℤ) (s : ℚ) (w : ℕ)
    (_hs0 : 0 < s) (hs : s ≤ (MIN_SCALE_X : ℚ)) (hw : w ≤ TILE_WIDTH) :
    (∀ t : List ℚ, RENDERER_MAX_TRACE_SIZE < t.length → gpuLoadTrace t = none)
    ∧ (traceChunk trace index s w).length ≤ RENDERER_MAX_TRACE_SIZE
    ∧ gpuLoadTrace (traceChunk trace index s w) = some () := by
  have hlen : (traceChunk trace index s w).length ≤ RENDERER_MAX_TRACE_SIZE := by
    have hws : (w : ℚ) * s ≤ (TILE_WIDTH : ℚ) * (MIN_SCALE_X : ℚ) := by
      have hwq : (w : ℚ) ≤ (TILE_WIDTH : ℚ) := by exact_mod_cast hw
      have hw0 : (0 : ℚ) ≤ (w : ℚ) := by positivity
      nlinarith
    have hfloor : ⌊(w : ℚ) * s⌋ ≤ (TILE_WIDTH * MIN_SCALE_X : ℕ) := by
      have := Int.floor_le_floor hws
      have hc : ⌊((TILE_WIDTH : ℚ) * (MIN_SCALE_X : ℚ))⌋
          = ((TILE_WIDTH * MIN_SCALE_X : ℕ) : ℤ) := by
        push_cast
        exact_mod_cast Int.floor_intCast (TILE_WIDTH * MIN_SCALE_X : ℤ)
      omega
    have hspan : iEnd index w s ≤ iStart index w s + ⌊(w : ℚ) * s⌋ + 1 := by
      have harg : ((index : ℚ) + 1) * w * s = (index : ℚ) * w * s
          + (w : ℚ) * s := by ring
      have := floor_add_le_floor_add_floor_add_one ((index : ℚ) * w * s)
        ((w : ℚ) * s)
      unfold iEnd iStart
      rw [harg]
      omega
    have htake : (traceChunk trace index s w).length ≤
        (iEnd index w s + 1 - iStart index w s).toNat := by
      unfold traceChunk
      have h1 : min (iEnd index w s + 1) (trace.length : ℤ)
          - iStart index w s ≤ iEnd index w s + 1 - iStart index w s := by
        omega
      calc (traceChunk trace index s w).length
          ≤ (min (iEnd index w s + 1) (trace.length : ℤ)
              - iStart index w s).toNat := by
            simp [traceChunk, List.length_take]
        _ ≤ (iEnd index w s + 1 - iStart index w s).toNat := by omega
    have hbound : iEnd index w s + 1 - iStart index w s
        ≤ ((RENDERER_MAX_TRACE_SIZE : ℕ) : ℤ) := by
      have : (TILE_WIDTH * MIN_SCALE_X : ℕ) + 2 ≤ RENDERER_MAX_TRACE_SIZE := by
        norm_num [TILE_WIDTH, MIN_SCALE_X, RENDERER_MAX_TRACE_SIZE]
      omega
    omega
  refine ⟨?_, hlen, ?_⟩
  · intro t ht
    simp only [gpuLoadTrace, ite_eq_right_iff]
    intro hle
    omega
  · simp only [gpuLoadTrace, if_pos hlen]

theorem claim_C4_capacity_witness :
    (traceChunk [] 0 1 64).length ≤ RENDERER_MAX_TRACE_SIZE :=
  (claim_C4_capacity [] 0 1 64 (by norm_num)
    (by norm_num [MIN_SCALE_X, RENDERER_MAX_TRACE_SIZE, TILE_WIDTH])
    (by norm_num [TILE_WIDTH])).2.1

/-- C5: consecutive tile indices cover contiguous, disjoint sample ranges
`[⌊i*w*s⌋, ⌊(i+1)*w*s⌋)`; concretely with `scale.x = 10` and tile width 64,
tile 0 covers `[0, 640)` and tile 1 covers `[640, 1280)`, clamped by
`render_tile` to the 1000-sample trace end. -/
theorem claim_C5_tile_ranges (s : ℚ) (w : ℕ) (i : ℤ) (hs : 0 ≤ s) :
    (iEnd i w s = iStart (i + 1) w s)
    ∧ (iStart i w s ≤ iEnd i w s)
    ∧ (∀ k : ℤ, iStart i w s ≤ k → k < iEnd i w s →
        ¬(iStart (i + 1) w s ≤ k ∧ k < iEnd (i + 1) w s))
    ∧ (iStart 0 64 10 = 0 ∧ iEnd 0 64 10 = 640 ∧ iStart 1 64 10 = 640
        ∧ iEnd 1 64 10 = 1280
        ∧ min (iEnd 1 64 10 + 1) (1000 : ℤ) = 1000) := by
  have hcont : iEnd i w s = iStart (i + 1) w s := by
    unfold iEnd iStart
    congr 1
    push_cast
    ring
  have hmono : iStart i w s ≤ iEnd i w s := by
    apply Int.floor_le_floor
    have hw0 : (0 : ℚ) ≤ (w : ℚ) := by positivity
    nlinarith
  refine ⟨hcont, hmono, ?_, by norm_num [iStart], by norm_num [iEnd],
    by norm_num [iStart], by norm_num [iEnd], by norm_num [iEnd]⟩
  intro k hk1 hk2 ⟨hk3, hk4⟩
  omega

theorem claim_C5_tile_ranges_witness :
    iStart 0 64 10 = 0 ∧ iEnd 0 64 10 = 640 ∧ iStart 1 64 10 = 640
      ∧ iEnd 1 64 10 = 1280 ∧ min (iEnd 1 64 10 + 1) (1000 : ℤ) = 1000 :=
  (claim_C5_tile_ranges 10 64 0 (by norm_num)).2.2.2

/-- C6: `render_tile` returns a zero-filled grid of `width*height` entries
(and no error) when the tile's sample range lies entirely before 0 or starts
at or past the end of the trace, and likewise when the clamped slice is
empty. -/
theorem claim_C6_blank_tiles (render : ℕ → List ℚ → ℕ → ℕ → ℚ → ℚ → List ℕ)
    (trace : List ℚ) (index : ℤ) (offset s sy : ℚ) (size : TileSize) :
    ((iEnd index size.w s ≤ 0 ∧ iStart index size.w s < 0)
        ∨ (trace.length : ℤ) ≤ iStart index size.w s →
      renderTile render trace index offset s sy size =
        List.replicate size.area 0)
    ∧ (traceChunk trace index s size.w = [] →
      renderTile render trace index offset s sy size =
        List.replicate size.area 0) := by
  by_cases hg : (trace.length : ℤ) ≤ iStart index size.w s
      ∨ iStart index size.w s < 0
  · exact ⟨fun _ => by simp [renderTile, hg], fun _ => by simp [renderTile, hg]⟩
  · constructor
    · rintro (⟨-, hneg⟩ | hpast)
      · exact absurd (Or.inr hneg) hg
      · exact absurd (Or.inl hpast) hg
    · intro hchunk
      simp [renderTile, hg, hchunk]

theorem claim_C6_blank_tiles_witness :
    renderTile (fun _ _ _ _ _ _ => []) [(1 : ℚ)] (-1) 0 1 1 ⟨2, 2⟩ =
      List.replicate (TileSize.mk 2 2).area 0 :=
  (claim_C6_blank_tiles (fun _ _ _ _ _ _ => []) [(1 : ℚ)] (-1) 0 1 1
    ⟨2, 2⟩).1 (Or.inl ⟨by norm_num [iEnd], by norm_num [iStart]⟩)

/-! ## Camera-updating operations (src/viewer.rs, src/main.rs)

The zoom handler computes `s2 = (s1 * factor).clamp(lo, MIN_SCALE_X)` where
`lo` is `Fixed::from_num(0.01)` in `Viewer::update` (src/viewer.rs) and
`Fixed::from_num(1)` in the single-trace `Viewer::ui_waveform`
(src/main.rs, whose `MIN_SCALE_X` lacks the `- 1`); the autoscale handler
computes `scale.x = (trace_len / width).min(MIN_SCALE_X)`. -/

/-- Value of `MIN_SCALE_X` as defined in src/main.rs (no `- 1`). -/
def MIN_SCALE_X_MAIN : ℕ := RENDERER_MAX_TRACE_SIZE / TILE_WIDTH

/-- Raw fixed-point value of `Fixed::from_num(0.01)`: the f64 literal `0.01`
times `2^24`, rounded to nearest. -/
def SCALE_X_LOW_VIEWER : ℤ := 167772

/-- Rust `Ord::clamp` on raw fixed-point values. -/
def fixedClamp (v lo hi : ℤ) : ℤ :=
  if v < lo then lo else if hi < v then hi else v

/-- New `camera.scale.x` computed by the zoom branch of `Viewer::update`
(src/viewer.rs): `(s1 * factor).clamp(0.01, MIN_SCALE_X)` on raw values. -/
def zoomScaleXViewer (s1 factor : ℤ) : ℤ :=
  fixedClamp (fixedMul s1 factor) SCALE_X_LOW_VIEWER
    ((MIN_SCALE_X : ℤ) * FIXED_ONE)

/-- New `camera.scale.x` computed by the zoom branch of
`Viewer::ui_waveform` (src/main.rs): `(s1 * factor).clamp(1, MIN_SCALE_X)`. -/
def zoomScaleXMain (s1 factor : ℤ) : ℤ :=
  fixedClamp (fixedMul s1 factor) FIXED_ONE
    ((MIN_SCALE_X_MAIN : ℤ) * FIXED_ONE)

/-- New `camera.scale.x` computed by the autoscale branch of
`Viewer::update` (src/viewer.rs): `(trace_len / width).min(MIN_SCALE_X)`,
`width` being the raw fixed-point viewport width in physical pixels. -/
def autoscaleScaleX (traceLen : ℕ) (width : ℤ) : ℤ :=
  min (fixedDiv ((traceLen : ℤ) * FIXED_ONE) width) ((MIN_SCALE_X : ℤ) * FIXED_ONE)

lemma fixedClamp_bounds (v lo hi : ℤ) (h : lo ≤ hi) :
    lo ≤ fixedClamp v lo hi ∧ fixedClamp v lo hi ≤ hi := by
  unfold fixedClamp
  split
  · omega
  · split <;> omega

/-- C9 counterexample: zooming out in `Viewer::update` from the valid scale
`scale.x = 1` with a tiny zoom factor yields `scale.x = 0.01 < 1`, so the
claimed invariant `scale.x >= 1` is not preserved by the zoom operation. -/
theorem claim_C9_counterexample :
    zoomScaleXViewer FIXED_ONE 0 = SCALE_X_LOW_VIEWER
      ∧ SCALE_X_LOW_VIEWER < FIXED_ONE := by
  constructor
  · norm_num [zoomScaleXViewer, fixedMul, fixedClamp, FIXED_ONE,
      SCALE_X_LOW_VIEWER, MIN_SCALE_X, RENDERER_MAX_TRACE_SIZE, TILE_WIDTH,
      Int.fdiv]
  · norm_num [SCALE_X_LOW_VIEWER, FIXED_ONE]

/-- C9 (amended): every camera-updating operation keeps `scale.x` at most
`MIN_SCALE_X`; the zoom operation additionally enforces the lower bound
`0.01` in `Viewer::update` (src/viewer.rs) and `1` in the single-trace
`Viewer::ui_waveform` (src/main.rs), but the viewer zoom and the autoscale
operation can set `scale.x` below 1. -/
theorem claim_C9_scale_bounds (s1 factor : ℤ) (traceLen : ℕ) (width : ℤ) :
    (SCALE_X_LOW_VIEWER ≤ zoomScaleXViewer s1 factor
      ∧ zoomScaleXViewer s1 factor ≤ (MIN_SCALE_X : ℤ) * FIXED_ONE)
    ∧ (FIXED_ONE ≤ zoomScaleXMain s1 factor
      ∧ zoomScaleXMain s1 factor ≤ (MIN_SCALE_X_MAIN : ℤ) * FIXED_ONE)
    ∧ autoscaleScaleX traceLen width ≤ (MIN_SCALE_X : ℤ) * FIXED_ONE := by
  refine ⟨?_, ?_, min_le_right _ _⟩
  · exact fixedClamp_bounds _ _ _ (by
      norm_num [SCALE_X_LOW_VIEWER, MIN_SCALE_X, FIXED_ONE,
        RENDERER_MAX_TRACE_SIZE, TILE_WIDTH])
  · exact fixedClamp_bounds _ _ _ (by
      norm_num [MIN_SCALE_X_MAIN, FIXED_ONE, RENDERER_MAX_TRACE_SIZE,
        TILE_WIDTH])

/-! ## `Tile::generate_image` indexing (src/tiling.rs)

`generate_image` reads `data[x * h + y]` for every `x < w`, `y < h` of the
tile size, in row-major x-then-y loop order; a read past the end of `data`
is a panic, modelled as `none`.  The per-pixel color computation (power
curve and gradient on `f32`) cannot affect indexing and is not modelled. -/

/-- The indices read from `data` by the two nested loops. -/
def imageIndices (w h : ℕ) : List ℕ :=
  (List.range w).flatMap (fun x => (List.range h).map (fun y => x * h + y))

/-- Sequential reads of `data` at the given indices; `none` models the
out-of-bounds panic at the first failing read. -/
def readsAux (data : List ℕ) : List ℕ → Option (List ℕ)
  | [] => some []
  | k :: ks =>
    match data[k]? with
    | none => none
    | some v => (readsAux data ks).map (fun vs => v :: vs)

/-- The density values read by `Tile::generate_image` from a tile of size
`w × h` with density grid `data`, or `none` if a read panics. -/
def generateImageReads (w h : ℕ) (data : List ℕ) : Option (List ℕ) :=
  readsAux data (imageIndices w h)

lemma readsAux_isSome (data : List ℕ) (L : List ℕ) :
    (readsAux data L).isSome ↔ ∀ k ∈ L, k < data.length := by
  induction L with
  | nil => simp [readsAux]
  | cons c ks ih =>
    cases hc : data[c]? with
    | none =>
      have hcl : ¬ c < data.length := by
        intro h
        exact absurd hc (by simp [List.getElem?_eq_getElem h])
      simp [readsAux, hc, hcl]
    | some v =>
      have hcl : c < data.length := by
        by_contra h
        rw [List.getElem?_eq_none (by omega)] at hc
        exact Option.noConfusion hc
      simp [readsAux, hc, ih, hcl]

lemma mem_imageIndices {w h k : ℕ} :
    k ∈ imageIndices w h ↔ ∃ x < w, ∃ y < h, k = x * h + y := by
  simp only [imageIndices, List.mem_flatMap, List.mem_map, List.mem_range]
  constructor
  · rintro ⟨x, hx, y, hy, rfl⟩
    exact ⟨x, hx, y, hy, rfl⟩
  · rintro ⟨x, hx, y, hy, rfl⟩
    exact ⟨x, hx, y, hy, rfl⟩

/-- C10: `generate_image` reads `data[x*h + y]` for all `x < w`, `y < h`,
so it is panic-free exactly when `data` has at least `w*h` elements; on a
freshly created `NotRendered` tile (empty `data`) with nonzero area it
panics. -/
theorem claim_C10_generate_image (w h : ℕ) (data : List ℕ)
    (p : TileProperties) :
    ((generateImageReads w h data).isSome ↔ w * h ≤ data.length)
    ∧ (0 < w * h → generateImageReads w h (Tile.new p).data = none) := by
  have hiff : ∀ d : List ℕ, (generateImageReads w h d).isSome ↔
      w * h ≤ d.length := by
    intro d
    rw [generateImageReads, readsAux_isSome]
    constructor
    · intro hall
      rcases Nat.eq_zero_or_pos (w * h) with hzero | hpos
      · omega
      · have hw : 0 < w := by
          rcases Nat.eq_zero_or_pos w with h0 | h1
          · rw [h0, Nat.zero_mul] at hpos; omega
          · exact h1
        have hh : 0 < h := by
          rcases Nat.eq_zero_or_pos h with h0 | h1
          · rw [h0, Nat.mul_zero] at hpos; omega
          · exact h1
        have hmem : (w - 1) * h + (h - 1) ∈ imageIndices w h :=
          mem_imageIndices.mpr ⟨w - 1, by omega, h - 1, by omega, rfl⟩
        have hread := hall _ hmem
        have harith : (w - 1) * h + (h - 1) + 1 = w * h := by
          cases' w with n
          · omega
          · cases' h with m
            · omega
            · simp only [Nat.succ_sub_one, Nat.succ_eq_add_one]
              ring
        omega
    · intro hle k hk
      obtain ⟨x, hx, y, hy, rfl⟩ := mem_imageIndices.mp hk
      have : x * h + y < w * h := by
        calc x * h + y < x * h + h := by omega
          _ = (x + 1) * h := by ring
          _ ≤ w * h := Nat.mul_le_mul_right h hx
      omega
  refine ⟨hiff data, ?_⟩
  intro hpos
  rw [← Option.not_isSome_iff_eq_none, hiff]
  simp only [Tile.new, List.length_nil, Nat.le_zero]
  omega

theorem claim_C10_generate_image_witness :
    0 < 2 * 2 ∧ generateImageReads 2 2 (Tile.new pEx1).data = none :=
  ⟨by norm_num, (claim_C10_generate_image 2 2 [] pEx1).2 (by norm_num)⟩

/-! ## Renderer backends (spec §4.3)

Modelled from the spec: the `Renderer` trait, the `CpuRenderer` and the GPU
compute shader (`shader.wgsl`) are not part of the sources; only the GPU
dispatch scaffolding (`GpuRenderer` in src/renderer.rs) is.  Both backends
are therefore modelled from the spec's algorithm: for each pair of
consecutive samples `(p0, p1)` at positions `(i, i+1)`, the pixel column is
`x = clamp(floor(i * width / chunk_sample_count), 0, width-1)`, the rows are
`y0 = height/2 + (p0 + v_offset) * v_scale` (`y1` analogous), and every
integer row of the grid between `min(y0,y1)` and `max(y0,y1)` inclusive is
incremented by 1 at column `x`.  Grids are column-major lists of length
`width * height` (cell `(x, y)` at position `x * height + y`). -/

/-- Geometric parameters of a render request (spec §4.3 contract). -/
structure RenderParams where
  chunkLen : ℕ
  width : ℕ
  height : ℕ
  vOffset : ℚ
  vScale : ℚ

/-- Modelled from the spec: output pixel column of sample position `i`,
`floor(i * width / chunk_sample_count)` clamped to `[0, width-1]`. -/
def pixelColumn (p : RenderParams) (i : ℕ) : ℕ :=
  min (i * p.width / p.chunkLen) (p.width - 1)

/-- Modelled from the spec: amplitude-to-row mapping
`height/2 + (v + v_offset) * v_scale`. -/
def yValue (p : RenderParams) (v : ℚ) : ℚ :=
  (p.height : ℚ) / 2 + (v + p.vOffset) * p.vScale

/-- Modelled from the spec: the grid rows `y` with
`min(y0,y1) ≤ y ≤ max(y0,y1)` touched by the segment joining amplitudes
`v0` and `v1`. -/
def rowList (p : RenderParams) (v0 v1 : ℚ) : List ℕ :=
  (List.range p.height).filter (fun y =>
    decide (min (yValue p v0) (yValue p v1) ≤ (y : ℚ)) &&
    decide ((y : ℚ) ≤ max (yValue p v0) (yValue p v1)))

/-- Column-major cell positions incremented by the segment of pair `i`. -/
def pairPositions (p : RenderParams) (samples : List ℚ) (i : ℕ) : List ℕ :=
  (rowList p (samples.getD i 0) (samples.getD (i + 1) 0)).map
    (fun y => pixelColumn p i * p.height + y)

/-- One increment of a grid cell (the atomic-increment-equivalent). -/
def incrAt (g : List ℕ) (k : ℕ) : List ℕ := g.set k (g.getD k 0 + 1)

/-- Modelled from the spec: the direct-computation (CPU) backend iterates
the consecutive sample pairs in a loop, incrementing one grid cell at a
time. -/
def cpuRender (p : RenderParams) (samples : List ℚ) : List ℕ :=
  (List.range (samples.length - 1)).foldl
    (fun g i => (pairPositions p samples i).foldl incrAt g)
    (List.replicate (p.width * p.height) 0)

/-- Modelled from the spec: the parallel/accelerated (GPU) backend
partitions the same per-pixel accumulation across parallel lanes: the lane
of cell `k` accumulates the hits of every pair at `k` with an
atomic-increment-equivalent operation. -/
def gpuRender (p : RenderParams) (samples : List ℚ) : List ℕ :=
  (List.range (p.width * p.height)).map
    (fun k => ((List.range (samples.length - 1)).map
      (fun i => (pairPositions p samples i).count k)).sum)

lemma length_foldl_incrAt (L : List ℕ) (g : List ℕ) :
    (L.foldl incrAt g).length = g.length := by
  induction L generalizing g with
  | nil => rfl
  | cons c L ih => simp [incrAt, ih]

lemma getD_incrAt (g : List ℕ) (c k : ℕ) (hk : k < g.length) :
    (incrAt g c).getD k 0 = g.getD k 0 + if c = k then 1 else 0 := by
  unfold incrAt
  by_cases h : c = k
  · subst h
    rw [List.getD_eq_getElem?_getD, List.getElem?_set_self hk]
    rw [if_pos rfl]
    rfl
  · rw [List.getD_eq_getElem?_getD, List.getElem?_set_ne h,
      ← List.getD_eq_getElem?_getD, if_neg h]
    omega

lemma getD_foldl_incrAt (L : List ℕ) (g : List ℕ) (k : ℕ)
    (hk : k < g.length) :
    (L.foldl incrAt g).getD k 0 = g.getD k 0 + L.count k := by
  induction L generalizing g with
  | nil => simp
  | cons c L ih =>
    have hk' : k < (incrAt g c).length := by simp [incrAt, hk]
    rw [List.foldl_cons, ih _ hk', getD_incrAt g c k hk, List.count_cons]
    simp only [beq_iff_eq]
    omega

lemma length_nested_foldl (f : ℕ → List ℕ) (xs : List ℕ) (g : List ℕ) :
    (xs.foldl (fun g i => (f i).foldl incrAt g) g).length = g.length := by
  induction xs generalizing g with
  | nil => rfl
  | cons i xs ih => simp [ih, length_foldl_incrAt]

lemma getD_nested_foldl (f : ℕ → List ℕ) (xs : List ℕ) (g : List ℕ) (k : ℕ)
    (hk : k < g.length) :
    (xs.foldl (fun g i => (f i).foldl incrAt g) g).getD k 0 =
      g.getD k 0 + (xs.map (fun i => (f i).count k)).sum := by
  induction xs generalizing g with
  | nil => simp
  | cons i xs ih =>
    have hk' : k < ((f i).foldl incrAt g).length := by
      rw [length_foldl_incrAt]; exact hk
    rw [List.foldl_cons, ih _ hk', getD_foldl_incrAt _ _ _ hk,
      List.map_cons, List.sum_cons]
    omega

/-- C1: the direct-computation (CPU) backend and the parallel (GPU) backend
return exactly equal `width*height` grids of density counts for every input
within the backends' capacity bounds. -/
theorem claim_C1_backend_equivalence (p : RenderParams) (samples : List ℚ)
    (_hchunk : 0 < p.chunkLen)
    (_htrace : samples.length ≤ RENDERER_MAX_TRACE_SIZE)
    (_hpix : p.width * p.height ≤ RENDERER_MAX_PIXELS) :
    cpuRender p samples = gpuRender p samples := by
  have hcl : (cpuRender p samples).length = p.width * p.height := by
    rw [cpuRender, length_nested_foldl, List.length_replicate]
  have hgl : (gpuRender p samples).length = p.width * p.height := by
    rw [gpuRender, List.length_map, List.length_range]
  apply List.ext_getElem (by rw [hcl, hgl])
  intro k hk₁ hk₂
  have hk : k < p.width * p.height := by rw [hcl] at hk₁; exact hk₁
  have hrep : k < (List.replicate (p.width * p.height) (0 : ℕ)).length := by
    simpa using hk
  have hcpu : (cpuRender p samples)[k] =
      ((List.range (samples.length - 1)).map
        (fun i => (pairPositions p samples i).count k)).sum := by
    rw [← List.getD_eq_getElem _ 0 hk₁, cpuRender,
      getD_nested_foldl _ _ _ _ hrep, List.getD_eq_getElem _ 0 hrep,
      List.getElem_replicate]
    omega
  have hgpu : (gpuRender p samples)[k] =
      ((List.range (samples.length - 1)).map
        (fun i => (pairPositions p samples i).count k)).sum := by
    simp only [gpuRender, List.getElem_map, List.getElem_range]
  rw [hcpu, hgpu]

theorem claim_C1_backend_equivalence_witness :
    cpuRender ⟨2, 1, 4, 0, 1⟩ [0, 1] = gpuRender ⟨2, 1, 4, 0, 1⟩ [0, 1] :=
  claim_C1_backend_equivalence ⟨2, 1, 4, 0, 1⟩ [0, 1] (by norm_num)
    (by norm_num [RENDERER_MAX_TRACE_SIZE])
    (by norm_num [RENDERER_MAX_PIXELS])

end Turboplot
